import Mathlib

/-!
Shallow embedding of `vite-plugin-entry-dag` (src/index.ts).

The plugin's `generateBundle` hook builds a dependency DAG from a list of
entry module ids, using the host's `getModuleInfo` oracle, and serializes
`{ nodes, edges, entries }`.  Here the oracle is an explicit finite
association list, the mutable `nodes` / `edges` / `nodeIdToOrder` /
`edgeKeySet` / `entryRelIds` / `orderCounter` variables are threaded as an
explicit `BuildState`, and the recursive `traverse` closure is modelled as a
fuel-indexed pair of mutually recursive functions (`traverseF` descends into
one module, `goDepsF` runs one of the two dependency loops).  Fuel only
bounds recursion depth; `traverseF_stable` below shows the result is
fuel-independent once fuel exceeds the number of oracle entries, which is the
termination argument of the JS original (the per-entry `visited` set).
-/

namespace EntryDag

/-- Edge classification, `type EdgeKind = 'static' | 'dynamic'` in the source. -/
inductive EdgeKind where
  | static
  | dynamic
deriving DecidableEq, Repr

/-- Output node, `interface DagNode { id, order }`. -/
structure DagNode where
  id : String
  order : Nat
deriving DecidableEq, Repr

/-- Output edge, `interface DagEdge { source, target, kind }`. -/
structure DagEdge where
  source : String
  target : String
  kind : EdgeKind
deriving DecidableEq, Repr

/-- Serialized result shape, `interface DagOutput { nodes, edges, entries }`. -/
structure DagOutput where
  nodes : List DagNode
  edges : List DagEdge
  entries : List String
deriving DecidableEq, Repr

/-- The part of the host's module info that the plugin reads:
`info.importedIds` and `info.dynamicallyImportedIds`. -/
structure ModuleInfo where
  importedIds : List String
  dynamicallyImportedIds : List String
deriving DecidableEq, Repr

/-- The `this.getModuleInfo` oracle, as a finite association list from module
id to its dependency lists.  An id outside the list is an unresolved module
(`getModuleInfo` returns null). -/
abbrev ModuleGraph := List (String × ModuleInfo)

/-- Oracle lookup: `this.getModuleInfo(id)`. -/
def lookupInfo (g : ModuleGraph) (id : String) : Option ModuleInfo :=
  match g with
  | [] => none
  | (k, v) :: rest => if k = id then some v else lookupInfo rest id

/-- Module ids known to the oracle (the domain of `getModuleInfo`). -/
def domKeys (g : ModuleGraph) : List String := g.map Prod.fst

/-- Split a character list at every occurrence of the separator, JS
`s.split(sep)` for a one-character separator. -/
def splitChar (sep : Char) : List Char → List (List Char)
  | [] => [[]]
  | c :: rest =>
    match splitChar sep rest with
    | [] => [[]]
    | h :: t => if c = sep then [] :: h :: t else (c :: h) :: t

/-- JS `id.split('?')[0]`: drop everything from the first question mark on. -/
def normalizeId (id : String) : String :=
  String.mk (id.toList.takeWhile (fun c => c ≠ '?'))

/-- Path segments of a POSIX path after resolution: split on `/`, drop empty
segments and `.`, apply `..` by popping.  This models what Node's
`path.resolve` does to an absolute path (the plugin only ever receives
absolute ids and an absolute root from vite). -/
def normSegs (p : String) : List String :=
  ((splitChar '/' p.toList).map String.mk).foldl
    (fun acc seg =>
      if seg = "" then acc
      else if seg = "." then acc
      else if seg = ".." then acc.dropLast
      else acc ++ [seg]) []

/-- Length of the longest common prefix of two segment lists. -/
def commonSegsLen : List String → List String → Nat
  | a :: as, b :: bs => if a = b then commonSegsLen as bs + 1 else 0
  | _, _ => 0

/-- Node's `path.relative(fromP, toP)` on POSIX paths: strip the common
segment prefix, go up with `..` for each remaining segment of `fromP`, then
descend into the remaining segments of `toP`.  Equal paths give `""`. -/
def pathRelative (fromP toP : String) : String :=
  let f := normSegs fromP
  let t := normSegs toP
  let c := commonSegsLen f t
  String.intercalate "/" (List.replicate (f.length - c) ".." ++ t.drop c)

/-- The plugin's `toRel`: `path.relative(root, normalizeId(absId)) || clean`
(an empty relative path falls back to the cleaned absolute id). -/
def toRel (root absId : String) : String :=
  let clean := normalizeId absId
  let rel := pathRelative root clean
  if rel = "" then clean else rel

/-- Node's `path.basename`: drop trailing slashes, then keep everything after
the last slash. -/
def basenameStr (p : String) : String :=
  String.mk (((p.toList.reverse.dropWhile (fun c => c = '/')).takeWhile
    (fun c => c ≠ '/')).reverse)

/-- Node's `path.extname`: the suffix of the basename from its last dot on,
except that a leading dot (hidden files) and the special name `..` yield
an empty extension. -/
def extnameStr (p : String) : String :=
  let b := basenameStr p
  let cs := b.toList
  match cs.reverse.findIdx? (fun c => c = '.') with
  | none => ""
  | some r =>
    let j := cs.length - 1 - r
    if j = 0 then "" else if b = ".." then "" else String.mk (cs.drop j)

/-- JS `s.trim()`: strip leading and trailing whitespace. -/
def trimStr (s : String) : String :=
  String.mk (((s.toList.dropWhile Char.isWhitespace).reverse.dropWhile
    Char.isWhitespace).reverse)

/-- JS `s.toLowerCase()` on the ASCII range. -/
def toLowerStr (s : String) : String := String.mk (s.toList.map Char.toLower)

/-- The plugin's `normalizeExt`: trim, lower-case, and guarantee a leading
dot. -/
def normalizeExt (ext : String) : String :=
  let e := toLowerStr (trimStr ext)
  if e.toList.headD ' ' = '.' then e else String.mk ('.' :: e.toList)

/-- The hard-coded `defaultExts` list. -/
def defaultExts : List String := [".js", ".jsx", ".ts", ".tsx", ".vue"]

/-- The plugin's `configuredExts`: use `options.extensions` mapped through
`normalizeExt` when it is an array with at least one element, otherwise the
defaults.  `none` models an absent option. -/
def configuredExts (extsOpt : Option (List String)) : List String :=
  match extsOpt with
  | some exts => if exts.length > 0 then exts.map normalizeExt else defaultExts
  | none => defaultExts

/-- The plugin's `hasSupportedExt`: membership of the lower-cased extension
of the query-stripped id in the configured extension set. -/
def hasSupportedExt (exts : List String) (id : String) : Bool :=
  exts.contains (toLowerStr (extnameStr (normalizeId id)))

/-- JS `s.includes(pat)`: `pat` occurs as a contiguous substring of `s`. -/
def strIncludes (s pat : String) : Bool :=
  (List.range (s.toList.length + 1)).any (fun i => pat.toList.isPrefixOf (s.toList.drop i))

/-- JS `s.startsWith(pat)`. -/
def strStartsWith (s pat : String) : Bool :=
  pat.toList.isPrefixOf s.toList

/-- The plugin's `shouldSkip`: empty id, id mentioning `node_modules`, or a
virtual module id starting with the NUL sentinel. -/
def shouldSkip (id : String) : Bool :=
  if id = "" then true
  else if strIncludes id "node_modules" then true
  else if strStartsWith id "\x00" then true
  else false

/-- The mutable build-wide state of `generateBundle`: the `nodes` and `edges`
arrays, the `nodeIdToOrder` map (as an insertion-ordered association list),
the `edgeKeySet` (insertion-ordered), `entryRelIds`, and `orderCounter`. -/
structure BuildState where
  nodes : List DagNode
  edges : List DagEdge
  nodeIdToOrder : List (String × Nat)
  edgeKeySet : List String
  entryRelIds : List String
  orderCounter : Nat
deriving DecidableEq, Repr

/-- The initial state: empty collections, counter 1. -/
def initState : BuildState := ⟨[], [], [], [], [], 1⟩

/-- Membership test on the `nodeIdToOrder` map (`nodeIdToOrder.has(relId)`). -/
def hasNode (s : BuildState) (relId : String) : Bool :=
  s.nodeIdToOrder.any (fun p => p.1 == relId)

/-- The plugin's `ensureNode`: create a node with the next `orderCounter`
value on first sight of a canonical id; returns the canonical id as well. -/
def ensureNode (root : String) (s : BuildState) (absId : String) : BuildState × String :=
  let relId := toRel root absId
  if hasNode s relId then (s, relId)
  else
    ({ s with
        nodeIdToOrder := s.nodeIdToOrder ++ [(relId, s.orderCounter)],
        nodes := s.nodes ++ [⟨relId, s.orderCounter⟩],
        orderCounter := s.orderCounter + 1 }, relId)

/-- The edge-uniqueness key, JS template string `from + '|' + to + '|' + kind`. -/
def edgeKey (fromRel toId : String) (kind : EdgeKind) : String :=
  fromRel ++ "|" ++ toId ++ "|" ++ (match kind with
    | EdgeKind.static => "static"
    | EdgeKind.dynamic => "dynamic")

/-- The edge-uniqueness key of a built edge. -/
def edgeKeyOf (e : DagEdge) : String := edgeKey e.source e.target e.kind

/-- The plugin's `addEdge`: push a new edge unless its key was seen before. -/
def addEdge (s : BuildState) (fromRel toId : String) (kind : EdgeKind) : BuildState :=
  let key := edgeKey fromRel toId kind
  if s.edgeKeySet.contains key then s
  else { s with
          edgeKeySet := s.edgeKeySet ++ [key],
          edges := s.edges ++ [⟨fromRel, toId, kind⟩] }

/-- Lines 99-102 of the source: at the head of `traverse`, register the
current id as a node when it is of a supported type and not yet present. -/
def registerSelf (root : String) (exts : List String) (id : String) (s : BuildState) : BuildState :=
  if hasSupportedExt exts id && !hasNode s (toRel root id) then (ensureNode root s id).1 else s

/-- The per-dependency node/edge bookkeeping in the two loops of `traverse`
(lines 109-117 and 126-132): with both endpoints supported, ensure the target
node and add the edge; with only the target supported, ensure the target
node; otherwise do nothing.  (The `shouldSkip` test and the recursion guard
live in `goDepsF`.) -/
def recordDep (root : String) (exts : List String) (id dep : String) (kind : EdgeKind)
    (s : BuildState) : BuildState :=
  let fromRel := toRel root id
  let depRel := toRel root dep
  if hasSupportedExt exts id && hasSupportedExt exts dep then
    let s1 := if hasNode s depRel then s else (ensureNode root s dep).1
    addEdge s1 fromRel depRel kind
  else if hasSupportedExt exts dep && !hasNode s depRel then
    (ensureNode root s dep).1
  else s

/-- State carried through one entry's walk: the shared `BuildState` plus the
per-entry `visited` set (insertion-ordered, duplicate-free by construction). -/
structure TravState where
  bs : BuildState
  visited : List String
deriving DecidableEq, Repr

/-- The per-dependency body of the two loops of `traverse` (lines 108-121 and
125-136), parameterized by the recursive continuation `tr`: `continue` when
`shouldSkip` matches, otherwise do the node/edge bookkeeping, then recurse
via `tr` when the dependency is not in `visited` (adding it first). -/
def depStep (root : String) (exts : List String) (tr : String → TravState → TravState)
    (id : String) (kind : EdgeKind) (ts : TravState) (dep : String) : TravState :=
  if shouldSkip dep then ts
  else
    let ts1 : TravState := { ts with bs := recordDep root exts id dep kind ts.bs }
    if ts1.visited.contains dep then ts1
    else tr dep { ts1 with visited := ts1.visited ++ [dep] }

/-- The recursive `traverse` closure (lines 96-138), indexed by fuel (fuel
only bounds recursion depth, see `traverseF_stable`): register the current
id, stop if the oracle knows nothing, otherwise run the static dependency
loop and then the dynamic one. -/
def traverseF (g : ModuleGraph) (root : String) (exts : List String) :
    Nat → String → TravState → TravState
  | 0, _, ts => ts
  | fuel + 1, id, ts =>
    let ts1 : TravState := { ts with bs := registerSelf root exts id ts.bs }
    match lookupInfo g id with
    | none => ts1
    | some info =>
      let ts2 := info.importedIds.foldl
        (depStep root exts (fun dep ts => traverseF g root exts fuel dep ts) id EdgeKind.static) ts1
      info.dynamicallyImportedIds.foldl
        (depStep root exts (fun dep ts => traverseF g root exts fuel dep ts) id EdgeKind.dynamic) ts2

/-- One full dependency loop at a given fuel level: fold `depStep` with the
fuel-indexed `traverseF` as continuation.  `traverseF (fuel + 1)` runs this
once for the static list and once for the dynamic list. -/
def goDepsF (g : ModuleGraph) (root : String) (exts : List String) (fuel : Nat)
    (id : String) (kind : EdgeKind) (deps : List String) (ts : TravState) : TravState :=
  deps.foldl (depStep root exts (fun dep ts => traverseF g root exts fuel dep ts) id kind) ts

theorem goDepsF_nil (g : ModuleGraph) (root : String) (exts : List String) (fuel : Nat)
    (id : String) (kind : EdgeKind) (ts : TravState) :
    goDepsF g root exts fuel id kind [] ts = ts := rfl

theorem goDepsF_cons (g : ModuleGraph) (root : String) (exts : List String) (fuel : Nat)
    (id : String) (kind : EdgeKind) (dep : String) (rest : List String) (ts : TravState) :
    goDepsF g root exts fuel id kind (dep :: rest) ts =
      goDepsF g root exts fuel id kind rest
        (depStep root exts (fun d t => traverseF g root exts fuel d t) id kind ts dep) := rfl

theorem traverseF_zero (g : ModuleGraph) (root : String) (exts : List String)
    (id : String) (ts : TravState) : traverseF g root exts 0 id ts = ts := rfl

theorem traverseF_succ (g : ModuleGraph) (root : String) (exts : List String) (fuel : Nat)
    (id : String) (ts : TravState) :
    traverseF g root exts (fuel + 1) id ts =
      match lookupInfo g id with
      | none => { ts with bs := registerSelf root exts id ts.bs }
      | some info =>
        goDepsF g root exts fuel id EdgeKind.dynamic info.dynamicallyImportedIds
          (goDepsF g root exts fuel id EdgeKind.static info.importedIds
            { ts with bs := registerSelf root exts id ts.bs }) := by
  cases hinfo : lookupInfo g id <;> simp only [traverseF, goDepsF, hinfo]


/-- The body of the `for (const entry of entries)` loop (lines 88-143):
skip empty entries, record supported entries as nodes and in `entryRelIds`,
then walk from the entry with `visited` seeded to the entry itself. -/
def runEntry (g : ModuleGraph) (root : String) (exts : List String) (fuel : Nat)
    (bs : BuildState) (entry : String) : BuildState :=
  if entry = "" then bs
  else
    let bs1 :=
      if hasSupportedExt exts entry then
        let p := ensureNode root bs entry
        { p.1 with entryRelIds := p.1.entryRelIds ++ [p.2] }
      else bs
    (traverseF g root exts fuel entry ⟨bs1, [entry]⟩).bs

/-- Final node ordering (line 146): `nodes.sort((a, b) => a.order - b.order)`,
a stable sort by `order`. -/
def sortNodes (l : List DagNode) : List DagNode :=
  l.mergeSort (fun a b => decide (a.order ≤ b.order))

/-- The observable core of `generateBundle`: fold the entry loop over the
entries, then shape `{ nodes (sorted by order), edges, entries }`. -/
def buildDag (root : String) (extsOpt : Option (List String)) (fuel : Nat)
    (g : ModuleGraph) (entries : List String) : DagOutput :=
  let exts := configuredExts extsOpt
  let final := entries.foldl (fun bs entry => runEntry g root exts fuel bs entry) initState
  { nodes := sortNodes final.nodes, edges := final.edges, entries := final.entryRelIds }

/-! ## Monotonicity: the build state only ever grows by appending -/

/-- All collections of `t` extend those of `s` by a (possibly empty) suffix. -/
def Mono (s t : BuildState) : Prop :=
  (∃ a, t.nodes = s.nodes ++ a) ∧ (∃ a, t.edges = s.edges ++ a) ∧
  (∃ a, t.nodeIdToOrder = s.nodeIdToOrder ++ a) ∧ (∃ a, t.edgeKeySet = s.edgeKeySet ++ a)

theorem mono_refl (s : BuildState) : Mono s s :=
  ⟨⟨[], by simp⟩, ⟨[], by simp⟩, ⟨[], by simp⟩, ⟨[], by simp⟩⟩

theorem mono_trans {s t u : BuildState} (h1 : Mono s t) (h2 : Mono t u) : Mono s u := by
  obtain ⟨⟨a1, e1⟩, ⟨a2, e2⟩, ⟨a3, e3⟩, ⟨a4, e4⟩⟩ := h1
  obtain ⟨⟨b1, f1⟩, ⟨b2, f2⟩, ⟨b3, f3⟩, ⟨b4, f4⟩⟩ := h2
  exact ⟨⟨a1 ++ b1, by simp [f1, e1]⟩, ⟨a2 ++ b2, by simp [f2, e2]⟩,
    ⟨a3 ++ b3, by simp [f3, e3]⟩, ⟨a4 ++ b4, by simp [f4, e4]⟩⟩

theorem hasNode_mono {s t : BuildState} (h : Mono s t) {r : String}
    (hr : hasNode s r = true) : hasNode t r = true := by
  obtain ⟨_, _, ⟨a, ha⟩, _⟩ := h
  simp only [hasNode, List.any_eq_true] at hr ⊢
  obtain ⟨p, hp, hpe⟩ := hr
  exact ⟨p, by simp [ha, hp], hpe⟩

theorem ensureNode_mono (root : String) (s : BuildState) (a : String) :
    Mono s (ensureNode root s a).1 := by
  simp only [ensureNode]
  split
  · exact mono_refl s
  · exact ⟨⟨_, rfl⟩, ⟨[], by simp⟩, ⟨_, rfl⟩, ⟨[], by simp⟩⟩

theorem addEdge_mono (s : BuildState) (fromRel toId : String) (kind : EdgeKind) :
    Mono s (addEdge s fromRel toId kind) := by
  simp only [addEdge]
  split
  · exact mono_refl s
  · exact ⟨⟨[], by simp⟩, ⟨_, rfl⟩, ⟨[], by simp⟩, ⟨_, rfl⟩⟩

theorem registerSelf_mono (root : String) (exts : List String) (id : String) (s : BuildState) :
    Mono s (registerSelf root exts id s) := by
  simp only [registerSelf]
  split
  · exact ensureNode_mono root s id
  · exact mono_refl s

theorem recordDep_mono (root : String) (exts : List String) (id dep : String) (kind : EdgeKind)
    (s : BuildState) : Mono s (recordDep root exts id dep kind s) := by
  simp only [recordDep]
  split
  · refine mono_trans ?_ (addEdge_mono _ _ _ _)
    split
    · exact mono_refl s
    · exact ensureNode_mono root s dep
  · split
    · exact ensureNode_mono root s dep
    · exact mono_refl s

/-- Monotonicity at the walk level: build state grows, `visited` grows. -/
def MonoT (ts tt : TravState) : Prop :=
  Mono ts.bs tt.bs ∧ ∃ a, tt.visited = ts.visited ++ a

theorem monoT_refl (ts : TravState) : MonoT ts ts := ⟨mono_refl ts.bs, [], by simp⟩

theorem monoT_trans {ts tt tu : TravState} (h1 : MonoT ts tt) (h2 : MonoT tt tu) :
    MonoT ts tu := by
  obtain ⟨m1, a1, v1⟩ := h1
  obtain ⟨m2, a2, v2⟩ := h2
  exact ⟨mono_trans m1 m2, a1 ++ a2, by simp [v2, v1]⟩

theorem depStep_monoT (root : String) (exts : List String)
    {tr : String → TravState → TravState} (htr : ∀ d t, MonoT t (tr d t))
    (id : String) (kind : EdgeKind) (ts : TravState) (dep : String) :
    MonoT ts (depStep root exts tr id kind ts dep) := by
  simp only [depStep]
  split
  · exact monoT_refl ts
  · split
    · exact ⟨recordDep_mono root exts id dep kind ts.bs, [], by simp⟩
    · exact monoT_trans
        (⟨recordDep_mono root exts id dep kind ts.bs, [dep], rfl⟩ :
          MonoT ts { bs := recordDep root exts id dep kind ts.bs,
                     visited := ts.visited ++ [dep] })
        (htr dep _)

theorem goDepsF_monoT (g : ModuleGraph) (root : String) (exts : List String) (fuel : Nat)
    (IH : ∀ id ts, MonoT ts (traverseF g root exts fuel id ts)) :
    ∀ deps id kind ts, MonoT ts (goDepsF g root exts fuel id kind deps ts) := by
  intro deps
  induction deps with
  | nil => intro id kind ts; rw [goDepsF_nil]; exact monoT_refl ts
  | cons dep rest ih =>
    intro id kind ts
    rw [goDepsF_cons]
    exact monoT_trans (depStep_monoT root exts (fun d t => IH d t) id kind ts dep)
      (ih id kind _)

theorem traverseF_monoT (g : ModuleGraph) (root : String) (exts : List String) :
    ∀ fuel id ts, MonoT ts (traverseF g root exts fuel id ts) := by
  intro fuel
  induction fuel with
  | zero => intro id ts; rw [traverseF_zero]; exact monoT_refl ts
  | succ fuel ih =>
    intro id ts
    rw [traverseF_succ]
    have hreg : MonoT ts { ts with bs := registerSelf root exts id ts.bs } :=
      ⟨registerSelf_mono root exts id ts.bs, [], by simp⟩
    split
    · exact hreg
    · exact monoT_trans hreg (monoT_trans
        (goDepsF_monoT g root exts fuel ih _ id EdgeKind.static _)
        (goDepsF_monoT g root exts fuel ih _ id EdgeKind.dynamic _))

/-! ## The run invariant -/

/-- The ids of the nodes created so far, in creation order. -/
def nodeIds (s : BuildState) : List String := s.nodes.map (fun n => n.id)

/-- The invariant `generateBundle` maintains over its mutable state: `nodes`
mirrors the `nodeIdToOrder` map, orders are `1..N` in creation order with the
counter one past the end, `edgeKeySet` mirrors the edge list, keys and node
ids are duplicate-free, and every edge endpoint is a registered node. -/
structure Inv (s : BuildState) : Prop where
  nodes_eq : s.nodes = s.nodeIdToOrder.map (fun p => DagNode.mk p.1 p.2)
  orders_eq : s.nodes.map (fun n => n.order) = List.range' 1 s.nodes.length
  counter_eq : s.orderCounter = s.nodes.length + 1
  keys_eq : s.edgeKeySet = s.edges.map edgeKeyOf
  keys_nodup : s.edgeKeySet.Nodup
  ids_nodup : (nodeIds s).Nodup
  ends_mem : ∀ e ∈ s.edges, e.source ∈ nodeIds s ∧ e.target ∈ nodeIds s

theorem initState_inv : Inv initState := by
  constructor <;> simp [initState, nodeIds]

theorem hasNode_eq_mem (s : BuildState) (r : String) :
    hasNode s r = true ↔ r ∈ s.nodeIdToOrder.map Prod.fst := by
  simp [hasNode, List.any_eq_true, List.mem_map, beq_iff_eq]

theorem nodeIds_eq_keys {s : BuildState} (h : Inv s) :
    nodeIds s = s.nodeIdToOrder.map Prod.fst := by
  simp [nodeIds, h.nodes_eq, List.map_map, Function.comp]

theorem hasNode_iff_mem {s : BuildState} (h : Inv s) (r : String) :
    hasNode s r = true ↔ r ∈ nodeIds s := by
  rw [hasNode_eq_mem, nodeIds_eq_keys h]

theorem ensureNode_has (root : String) (s : BuildState) (a : String) :
    hasNode (ensureNode root s a).1 (toRel root a) = true := by
  simp only [ensureNode]
  split
  · assumption
  · simp [hasNode]

theorem ensureNode_inv {s : BuildState} (root : String) (a : String) (h : Inv s) :
    Inv (ensureNode root s a).1 := by
  simp only [ensureNode]
  split
  · exact h
  · rename_i hno
    constructor
    · simp [h.nodes_eq]
    · simp only [List.map_append, List.length_append, h.orders_eq, List.map_cons, List.map_nil,
        List.length_cons, List.length_nil, h.counter_eq]
      rw [List.range'_1_concat]
      simp [Nat.add_comm]
    · simp [h.counter_eq]
    · exact h.keys_eq
    · exact h.keys_nodup
    · have hmem : toRel root a ∉ nodeIds s := by
        intro hm
        rw [← hasNode_iff_mem h] at hm
        exact hno hm
      simp only [nodeIds, List.map_append, List.map_cons, List.map_nil]
      simp only [nodeIds] at hmem
      exact List.Nodup.append h.ids_nodup (by simp) (by simp [List.disjoint_right, hmem])
    · intro e he
      have := h.ends_mem e he
      simp only [nodeIds, List.map_append]
      exact ⟨List.mem_append_left _ this.1, List.mem_append_left _ this.2⟩

theorem addEdge_inv {s : BuildState} {fromRel toId : String} (kind : EdgeKind) (h : Inv s)
    (hs : fromRel ∈ nodeIds s) (ht : toId ∈ nodeIds s) :
    Inv (addEdge s fromRel toId kind) := by
  simp only [addEdge]
  split
  · exact h
  · rename_i hno
    constructor
    · exact h.nodes_eq
    · exact h.orders_eq
    · exact h.counter_eq
    · simp [h.keys_eq, edgeKeyOf]
    · have hkm : edgeKey fromRel toId kind ∉ s.edgeKeySet := by
        intro hm
        rw [← List.elem_iff] at hm
        exact hno hm
      exact List.Nodup.append h.keys_nodup (by simp) (by simp [List.disjoint_right, hkm])
    · exact h.ids_nodup
    · intro e he
      simp only [List.mem_append, List.mem_cons, List.not_mem_nil, or_false] at he
      rcases he with he | rfl
      · exact h.ends_mem e he
      · exact ⟨hs, ht⟩

theorem registerSelf_inv {s : BuildState} (root : String) (exts : List String) (id : String)
    (h : Inv s) : Inv (registerSelf root exts id s) := by
  simp only [registerSelf]
  split
  · exact ensureNode_inv root id h
  · exact h

theorem registerSelf_has {s : BuildState} (root : String) (exts : List String) (id : String)
    (hsup : hasSupportedExt exts id = true) :
    hasNode (registerSelf root exts id s) (toRel root id) = true := by
  simp only [registerSelf]
  split
  · exact ensureNode_has root s id
  · rename_i hg
    simp only [hsup, Bool.true_and, Bool.not_eq_true', Bool.not_eq_false] at hg
    simpa using hg

theorem recordDep_inv {s : BuildState} {root : String} {exts : List String} {id : String}
    (dep : String) (kind : EdgeKind) (h : Inv s)
    (hfrom : hasSupportedExt exts id = true → hasNode s (toRel root id) = true) :
    Inv (recordDep root exts id dep kind s) := by
  simp only [recordDep]
  split
  · rename_i hboth
    rw [Bool.and_eq_true] at hboth
    split
    · rename_i hdep
      exact addEdge_inv kind h ((hasNode_iff_mem h _).1 (hfrom hboth.1))
        ((hasNode_iff_mem h _).1 hdep)
    · rename_i hdep
      have h1 : Inv (ensureNode root s dep).1 := ensureNode_inv root dep h
      refine addEdge_inv kind h1 ?_ ?_
      · rw [← hasNode_iff_mem h1]
        exact hasNode_mono (ensureNode_mono root s dep) (hfrom hboth.1)
      · rw [← hasNode_iff_mem h1]
        exact ensureNode_has root s dep
  · split
    · exact ensureNode_inv root dep h
    · exact h

theorem depStep_inv (root : String) (exts : List String)
    {tr : String → TravState → TravState}
    (htr : ∀ d t, Inv t.bs → Inv (tr d t).bs)
    (id : String) (kind : EdgeKind) {ts : TravState} (dep : String) (h : Inv ts.bs)
    (hfrom : hasSupportedExt exts id = true → hasNode ts.bs (toRel root id) = true) :
    Inv (depStep root exts tr id kind ts dep).bs := by
  simp only [depStep]
  split
  · exact h
  · split
    · exact recordDep_inv dep kind h hfrom
    · exact htr dep _ (recordDep_inv dep kind h hfrom)

theorem goDepsF_inv (g : ModuleGraph) (root : String) (exts : List String) (fuel : Nat)
    (IH : ∀ id ts, Inv ts.bs → Inv (traverseF g root exts fuel id ts).bs) :
    ∀ deps id kind ts, Inv ts.bs →
      (hasSupportedExt exts id = true → hasNode ts.bs (toRel root id) = true) →
      Inv (goDepsF g root exts fuel id kind deps ts).bs := by
  intro deps
  induction deps with
  | nil => intro id kind ts h _; rw [goDepsF_nil]; exact h
  | cons dep rest ih =>
    intro id kind ts h hfrom
    rw [goDepsF_cons]
    refine ih id kind _ (depStep_inv root exts (fun d t ht => IH d t ht) id kind dep h hfrom) ?_
    intro hs
    exact hasNode_mono (depStep_monoT root exts
      (fun d t => traverseF_monoT g root exts fuel d t) id kind ts dep).1 (hfrom hs)

theorem traverseF_inv (g : ModuleGraph) (root : String) (exts : List String) :
    ∀ fuel id ts, Inv ts.bs → Inv (traverseF g root exts fuel id ts).bs := by
  intro fuel
  induction fuel with
  | zero => intro id ts h; rw [traverseF_zero]; exact h
  | succ fuel ih =>
    intro id ts h
    rw [traverseF_succ]
    have h1 : Inv (registerSelf root exts id ts.bs) := registerSelf_inv root exts id h
    split
    · exact h1
    · refine goDepsF_inv g root exts fuel ih _ id EdgeKind.dynamic _ ?_ ?_
      · exact goDepsF_inv g root exts fuel ih _ id EdgeKind.static _ h1
          (fun hs => registerSelf_has root exts id hs)
      · intro hs
        refine hasNode_mono (goDepsF_monoT g root exts fuel
          (traverseF_monoT g root exts fuel) _ id EdgeKind.static _).1 ?_
        exact registerSelf_has root exts id hs

theorem inv_set_entries {s : BuildState} (h : Inv s) (l : List String) :
    Inv { s with entryRelIds := l } := by
  obtain ⟨h1, h2, h3, h4, h5, h6, h7⟩ := h
  exact ⟨h1, h2, h3, h4, h5, h6, h7⟩

theorem runEntry_inv (g : ModuleGraph) (root : String) (exts : List String) (fuel : Nat)
    {bs : BuildState} (entry : String) (h : Inv bs) :
    Inv (runEntry g root exts fuel bs entry) := by
  simp only [runEntry]
  split
  · exact h
  · refine traverseF_inv g root exts fuel entry _ ?_
    dsimp only
    split
    · exact inv_set_entries (ensureNode_inv root entry h) _
    · exact h

theorem foldl_runEntry_inv (g : ModuleGraph) (root : String) (exts : List String) (fuel : Nat) :
    ∀ (entries : List String) (bs : BuildState), Inv bs →
      Inv (entries.foldl (fun bs entry => runEntry g root exts fuel bs entry) bs) := by
  intro entries
  induction entries with
  | nil => intro bs h; simpa using h
  | cons e rest ih =>
    intro bs h
    exact ih _ (runEntry_inv g root exts fuel e h)

/-! ## Output shaping -/

/-- The final state reached by the entry loop of one run. -/
def finalState (root : String) (extsOpt : Option (List String)) (fuel : Nat)
    (g : ModuleGraph) (entries : List String) : BuildState :=
  entries.foldl (fun bs entry => runEntry g root (configuredExts extsOpt) fuel bs entry) initState

theorem finalState_inv (root : String) (extsOpt : Option (List String)) (fuel : Nat)
    (g : ModuleGraph) (entries : List String) :
    Inv (finalState root extsOpt fuel g entries) :=
  foldl_runEntry_inv g root (configuredExts extsOpt) fuel entries initState initState_inv

/-- A creation-order node list (orders `1..N` in place) is left unchanged by
the final sort-by-order. -/
theorem sortNodes_of_orders {l : List DagNode}
    (h : l.map (fun n => n.order) = List.range' 1 l.length) : sortNodes l = l := by
  apply List.mergeSort_of_sorted
  have hp : List.Pairwise (fun a b => a < b) (l.map (fun n => n.order)) := by
    rw [h]; exact List.pairwise_lt_range' 1 l.length
  rw [List.pairwise_map] at hp
  exact hp.imp (fun hab => by simpa using Nat.le_of_lt hab)

theorem buildDag_eq_final (root : String) (extsOpt : Option (List String)) (fuel : Nat)
    (g : ModuleGraph) (entries : List String) :
    buildDag root extsOpt fuel g entries =
      { nodes := (finalState root extsOpt fuel g entries).nodes,
        edges := (finalState root extsOpt fuel g entries).edges,
        entries := (finalState root extsOpt fuel g entries).entryRelIds } := by
  have h := finalState_inv root extsOpt fuel g entries
  simp only [finalState] at h
  simp only [buildDag, finalState]
  rw [sortNodes_of_orders h.orders_eq]

/-! ## Termination: fuel-independence of the walk

The JS `traverse` terminates because recursion only enters ids that are not
yet in the per-entry `visited` set, and only ids known to the oracle expand
further.  In the fuel-indexed embedding this becomes: once fuel exceeds the
number of not-yet-visited oracle keys, the result no longer depends on fuel.
-/

/-- Oracle keys not yet in the `visited` set: the quantity that bounds the
depth of the remaining walk. -/
def remaining (g : ModuleGraph) (visited : List String) : Nat :=
  ((domKeys g).filter (fun k => !visited.contains k)).length

theorem contains_true_iff (l : List String) (a : String) : l.contains a = true ↔ a ∈ l := by
  simp

theorem filter_length_mono {p q : String → Bool} (hpq : ∀ a, q a = true → p a = true) :
    ∀ l : List String, (l.filter q).length ≤ (l.filter p).length := by
  intro l
  induction l with
  | nil => simp
  | cons a t ih =>
    cases hq : q a with
    | true =>
      rw [List.filter_cons_of_pos hq, List.filter_cons_of_pos (hpq a hq)]
      simpa using ih
    | false =>
      rw [List.filter_cons_of_neg (by simp [hq])]
      cases hp : p a with
      | true =>
        rw [List.filter_cons_of_pos hp]
        simp only [List.length_cons]
        omega
      | false => rw [List.filter_cons_of_neg (by simp [hp])]; exact ih

theorem filter_length_strict {p q : String → Bool} (hpq : ∀ a, q a = true → p a = true)
    {d : String} (hd : p d = true) (hqd : q d = false) :
    ∀ l : List String, d ∈ l → (l.filter q).length < (l.filter p).length := by
  intro l
  induction l with
  | nil => intro h; simp at h
  | cons a t ih =>
    intro hmem
    rcases List.mem_cons.1 hmem with rfl | hmem
    · rw [List.filter_cons_of_neg (by simp [hqd]), List.filter_cons_of_pos hd]
      simp only [List.length_cons]
      exact Nat.lt_succ_of_le (filter_length_mono hpq t)
    · cases hq : q a with
      | true =>
        rw [List.filter_cons_of_pos hq, List.filter_cons_of_pos (hpq a hq)]
        simpa using ih hmem
      | false =>
        rw [List.filter_cons_of_neg (by simp [hq])]
        cases hp : p a with
        | true =>
          rw [List.filter_cons_of_pos hp]
          simp only [List.length_cons]
          exact Nat.lt_succ_of_le (Nat.le_of_lt (ih hmem))
        | false => rw [List.filter_cons_of_neg (by simp [hp])]; exact ih hmem

theorem remaining_le (g : ModuleGraph) (visited : List String) :
    remaining g visited ≤ (domKeys g).length :=
  List.length_filter_le _ _

theorem remaining_append_le (g : ModuleGraph) (visited extra : List String) :
    remaining g (visited ++ extra) ≤ remaining g visited := by
  apply filter_length_mono
  intro a ha
  simp only [Bool.not_eq_true', ← Bool.not_eq_true] at ha ⊢
  intro hmem
  apply ha
  rw [contains_true_iff] at hmem ⊢
  exact List.mem_append_left _ hmem

theorem remaining_strict (g : ModuleGraph) {visited : List String} {dep : String}
    (hdom : dep ∈ domKeys g) (hnv : visited.contains dep = false) :
    remaining g (visited ++ [dep]) < remaining g visited := by
  refine filter_length_strict (p := fun k => !visited.contains k)
    (q := fun k => !(visited ++ [dep]).contains k) (d := dep) ?_ ?_ ?_ _ hdom
  · intro a ha
    simp only [Bool.not_eq_true'] at ha ⊢
    rcases hv : visited.contains a with _ | _
    · rfl
    · exfalso
      rw [contains_true_iff] at hv
      have : (visited ++ [dep]).contains a = true := by
        rw [contains_true_iff]; exact List.mem_append_left _ hv
      rw [this] at ha; cases ha
  · simp only [Bool.not_eq_true']
    exact hnv
  · simp only [Bool.not_eq_false']
    rw [contains_true_iff]
    exact List.mem_append_right _ (by simp)

theorem lookupInfo_some_mem {g : ModuleGraph} {id : String} {info : ModuleInfo}
    (h : lookupInfo g id = some info) : id ∈ domKeys g := by
  induction g with
  | nil => simp [lookupInfo] at h
  | cons p rest ih =>
    obtain ⟨k, v⟩ := p
    simp only [lookupInfo] at h
    split at h
    · rename_i hk; simp [domKeys, hk]
    · exact List.mem_cons_of_mem _ (ih h)

theorem lookupInfo_eq_none {g : ModuleGraph} {id : String} (h : id ∉ domKeys g) :
    lookupInfo g id = none := by
  induction g with
  | nil => rfl
  | cons p rest ih =>
    obtain ⟨k, v⟩ := p
    simp only [domKeys, List.map_cons, List.mem_cons, not_or] at h
    simp only [lookupInfo]
    rw [if_neg (fun hk => h.1 hk.symm)]
    exact ih h.2

theorem traverseF_of_none (g : ModuleGraph) (root : String) (exts : List String)
    {id : String} (hnone : lookupInfo g id = none) (k : Nat) (ts : TravState) :
    traverseF g root exts (k + 1) id ts = { ts with bs := registerSelf root exts id ts.bs } := by
  simp [traverseF, hnone]

/-- Fuel-independence of one dependency loop at unvisited-key rank `R`. -/
def StGo (g : ModuleGraph) (root : String) (exts : List String) (R : Nat) : Prop :=
  ∀ (deps : List String) (id : String) (kind : EdgeKind) (ts : TravState) (fa fb : Nat),
    remaining g ts.visited = R → R + 1 ≤ fa → R + 1 ≤ fb →
    goDepsF g root exts fa id kind deps ts = goDepsF g root exts fb id kind deps ts

/-- Fuel-independence of `traverseF` at unvisited-key rank `R`. -/
def StTrav (g : ModuleGraph) (root : String) (exts : List String) (R : Nat) : Prop :=
  ∀ (id : String) (ts : TravState) (fa fb : Nat),
    remaining g ts.visited = R → R + 2 ≤ fa → R + 2 ≤ fb →
    traverseF g root exts fa id ts = traverseF g root exts fb id ts

theorem stab_all (g : ModuleGraph) (root : String) (exts : List String) :
    ∀ R, StGo g root exts R ∧ StTrav g root exts R := by
  intro R
  induction R using Nat.strong_induction_on with
  | _ R IH =>
    have hgo : StGo g root exts R := by
      intro deps
      induction deps with
      | nil => intro id kind ts fa fb _ _ _; rw [goDepsF_nil, goDepsF_nil]
      | cons dep rest ihdeps =>
        intro id kind ts fa fb hR ha hb
        rw [goDepsF_cons, goDepsF_cons]
        have hstep :
            depStep root exts (fun d t => traverseF g root exts fa d t) id kind ts dep =
              depStep root exts (fun d t => traverseF g root exts fb d t) id kind ts dep := by
          simp only [depStep]
          split
          · rfl
          · split
            · rfl
            · rename_i hskip hnvis
              have hnvis' : ts.visited.contains dep = false := by
                simp only [Bool.not_eq_true] at hnvis
                exact hnvis
              by_cases hdom : dep ∈ domKeys g
              · have hlt : remaining g (ts.visited ++ [dep]) < R := by
                  rw [← hR]; exact remaining_strict g hdom hnvis'
                exact (IH _ hlt).2 dep _ fa fb rfl (by omega) (by omega)
              · have hnone := lookupInfo_eq_none hdom
                obtain ⟨ka, rfl⟩ : ∃ ka, fa = ka + 1 := ⟨fa - 1, by omega⟩
                obtain ⟨kb, rfl⟩ : ∃ kb, fb = kb + 1 := ⟨fb - 1, by omega⟩
                rw [traverseF_of_none g root exts hnone, traverseF_of_none g root exts hnone]
        rw [hstep]
        set ts2 :=
          depStep root exts (fun d t => traverseF g root exts fb d t) id kind ts dep with hts2
        have hrem2 : remaining g ts2.visited ≤ R := by
          obtain ⟨_, a2, hv2⟩ := depStep_monoT root exts
            (fun d t => traverseF_monoT g root exts fb d t) id kind ts dep
          rw [← hts2] at hv2
          rw [hv2, ← hR]
          exact remaining_append_le g _ _
        rcases Nat.lt_or_ge (remaining g ts2.visited) R with hlt | hge
        · exact (IH _ hlt).1 rest id kind ts2 fa fb rfl (by omega) (by omega)
        · exact ihdeps id kind ts2 fa fb (Nat.le_antisymm hrem2 hge) ha hb
    refine ⟨hgo, ?_⟩
    intro id ts fa fb hR ha hb
    obtain ⟨ka, rfl⟩ : ∃ ka, fa = ka + 1 := ⟨fa - 1, by omega⟩
    obtain ⟨kb, rfl⟩ : ∃ kb, fb = kb + 1 := ⟨fb - 1, by omega⟩
    rw [traverseF_succ, traverseF_succ]
    cases hinfo : lookupInfo g id with
    | none => rfl
    | some info =>
      dsimp only
      have hR1 : remaining g
          ({ ts with bs := registerSelf root exts id ts.bs } : TravState).visited = R := hR
      have hgstat : goDepsF g root exts ka id EdgeKind.static info.importedIds
            { ts with bs := registerSelf root exts id ts.bs } =
          goDepsF g root exts kb id EdgeKind.static info.importedIds
            { ts with bs := registerSelf root exts id ts.bs } :=
        hgo info.importedIds id EdgeKind.static _ ka kb hR1 (by omega) (by omega)
      rw [hgstat]
      set ts2 := goDepsF g root exts kb id EdgeKind.static info.importedIds
        { ts with bs := registerSelf root exts id ts.bs } with hts2
      have hrem2 : remaining g ts2.visited ≤ R := by
        obtain ⟨_, a2, hv2⟩ := goDepsF_monoT g root exts kb
          (traverseF_monoT g root exts kb) info.importedIds id EdgeKind.static
          { ts with bs := registerSelf root exts id ts.bs }
        rw [← hts2] at hv2
        rw [hv2, ← hR1]
        exact remaining_append_le g _ _
      rcases Nat.lt_or_ge (remaining g ts2.visited) R with hlt | hge
      · exact (IH _ hlt).1 info.dynamicallyImportedIds id EdgeKind.dynamic ts2 ka kb rfl
          (by omega) (by omega)
      · exact hgo info.dynamicallyImportedIds id EdgeKind.dynamic ts2 ka kb
          (Nat.le_antisymm hrem2 hge) (by omega) (by omega)

/-- Fuel-independence of `traverseF`: with fuel at least two past the number
of unvisited oracle keys, the walk's result does not depend on fuel.  This is
the termination argument of the JS `traverse`: the `visited` set bounds the
recursion. -/
theorem traverseF_stable (g : ModuleGraph) (root : String) (exts : List String)
    (id : String) (ts : TravState) (fa fb : Nat)
    (ha : remaining g ts.visited + 2 ≤ fa) (hb : remaining g ts.visited + 2 ≤ fb) :
    traverseF g root exts fa id ts = traverseF g root exts fb id ts :=
  (stab_all g root exts (remaining g ts.visited)).2 id ts fa fb rfl ha hb

/-- Fuel-independence of the whole build once fuel exceeds the oracle size. -/
theorem buildDag_stable (root : String) (extsOpt : Option (List String))
    (g : ModuleGraph) (entries : List String) (fa fb : Nat)
    (ha : (domKeys g).length + 2 ≤ fa) (hb : (domKeys g).length + 2 ≤ fb) :
    buildDag root extsOpt fa g entries = buildDag root extsOpt fb g entries := by
  have hrun : ∀ (bs : BuildState) (entry : String),
      runEntry g root (configuredExts extsOpt) fa bs entry =
        runEntry g root (configuredExts extsOpt) fb bs entry := by
    intro bs entry
    simp only [runEntry]
    split
    · rfl
    · rw [traverseF_stable g root (configuredExts extsOpt) entry _ fa fb
        (by show remaining g [entry] + 2 ≤ fa; have := remaining_le g [entry]; omega)
        (by show remaining g [entry] + 2 ≤ fb; have := remaining_le g [entry]; omega)]
  have hfold : ∀ (es : List String) (bs : BuildState),
      es.foldl (fun bs entry => runEntry g root (configuredExts extsOpt) fa bs entry) bs =
        es.foldl (fun bs entry => runEntry g root (configuredExts extsOpt) fb bs entry) bs := by
    intro es
    induction es with
    | nil => intro bs; rfl
    | cons e rest ih => intro bs; simp only [List.foldl_cons, hrun bs e, ih]
  simp only [buildDag, hfold]

/-! ## Characterizations of the string predicates -/

theorem strStartsWith_iff (s pat : String) :
    strStartsWith s pat = true ↔ ∃ t, s.toList = pat.toList ++ t := by
  simp only [strStartsWith, List.isPrefixOf_iff_prefix]
  constructor
  · rintro ⟨t, ht⟩; exact ⟨t, ht.symm⟩
  · rintro ⟨t, ht⟩; exact ⟨t, ht.symm⟩

theorem strIncludes_iff (s pat : String) :
    strIncludes s pat = true ↔ ∃ a b, s.toList = a ++ pat.toList ++ b := by
  simp only [strIncludes, List.any_eq_true, List.mem_range, List.isPrefixOf_iff_prefix]
  constructor
  · rintro ⟨i, hi, t, ht⟩
    refine ⟨s.toList.take i, t, ?_⟩
    rw [List.append_assoc, ht, List.take_append_drop]
  · rintro ⟨a, b, hs⟩
    refine ⟨a.length, ?_, b, ?_⟩
    · rw [hs]
      simp only [List.length_append]
      omega
    · rw [hs, List.append_assoc, List.drop_left]

theorem shouldSkip_iff (id : String) :
    shouldSkip id = true ↔
      id = "" ∨ (∃ a b, id.toList = a ++ "node_modules".toList ++ b) ∨
        ∃ t, id.toList = '\x00' :: t := by
  have hx : ("\x00" : String).toList = ['\x00'] := by decide
  have hsw : strStartsWith id "\x00" = true ↔ ∃ t, id.toList = '\x00' :: t := by
    rw [strStartsWith_iff, hx]
    simp only [List.singleton_append]
  simp only [shouldSkip]
  split
  · rename_i h; simp [h]
  · rename_i h1
    split
    · rename_i h2
      simp only [true_iff]
      exact Or.inr (Or.inl ((strIncludes_iff id "node_modules").1 h2))
    · rename_i h2
      split
      · rename_i h3
        simp only [true_iff]
        exact Or.inr (Or.inr (hsw.1 h3))
      · rename_i h3
        simp only [Bool.false_eq_true, false_iff]
        rintro (h | h | h)
        · exact h1 h
        · exact h2 ((strIncludes_iff id "node_modules").2 h)
        · exact h3 (hsw.2 h)

/-! ## Step-level facts about node and edge recording -/

theorem ensureNode_edges (root : String) (s : BuildState) (a : String) :
    (ensureNode root s a).1.edges = s.edges := by
  simp only [ensureNode]
  split <;> rfl

theorem recordDep_edges_of_not_both (root : String) (exts : List String) (id dep : String)
    (kind : EdgeKind) (s : BuildState)
    (h : ¬(hasSupportedExt exts id = true ∧ hasSupportedExt exts dep = true)) :
    (recordDep root exts id dep kind s).edges = s.edges := by
  simp only [recordDep]
  split
  · rename_i hb
    rw [Bool.and_eq_true] at hb
    exact absurd hb h
  · split
    · exact ensureNode_edges root s dep
    · rfl

theorem recordDep_target_only (root : String) (exts : List String) (id dep : String)
    (kind : EdgeKind) (s : BuildState)
    (hdep : hasSupportedExt exts dep = true) (hid : hasSupportedExt exts id = false) :
    (recordDep root exts id dep kind s).edges = s.edges ∧
      hasNode (recordDep root exts id dep kind s) (toRel root dep) = true := by
  refine ⟨recordDep_edges_of_not_both root exts id dep kind s (by simp [hid]), ?_⟩
  simp only [recordDep]
  split
  · rename_i hb
    rw [Bool.and_eq_true] at hb
    rw [hid] at hb
    exact absurd hb.1 (by simp)
  · split
    · exact ensureNode_has root s dep
    · rename_i hcond
      simp only [hdep, Bool.true_and, Bool.not_eq_true', Bool.not_eq_false] at hcond
      simpa using hcond

theorem registerSelf_of_registered (root : String) (exts : List String) (id : String)
    (s : BuildState) (h : hasNode s (toRel root id) = true) :
    registerSelf root exts id s = s := by
  simp [registerSelf, h]

/-- Uncurried edge-key function, used to transport key uniqueness to
(source, target, kind) triples. -/
def tripleKey (t : String × String × EdgeKind) : String := edgeKey t.1 t.2.1 t.2.2

theorem edges_triple_nodup {s : BuildState} (h : Inv s) :
    (s.edges.map (fun e => (e.source, e.target, e.kind))).Nodup := by
  have hkeys := h.keys_nodup
  rw [h.keys_eq] at hkeys
  have hmm : s.edges.map edgeKeyOf =
      (s.edges.map (fun e => (e.source, e.target, e.kind))).map tripleKey := by
    rw [List.map_map]; rfl
  rw [hmm] at hkeys
  exact hkeys.of_map tripleKey

/-! ## Concrete oracles used by the claims -/

/-- Oracle where the entry imports a virtual module (matched by `shouldSkip`),
and that virtual module in turn imports a supported file. -/
def skipGraph : ModuleGraph :=
  [("/p/m.ts", ⟨["\x00virt"], []⟩), ("\x00virt", ⟨["/p/c.ts"], []⟩)]

/-- The worked example oracle from the specification. -/
def exampleGraph : ModuleGraph :=
  [("/proj/src/main.ts", ⟨["/proj/src/a.ts"], ["/proj/src/b.ts"]⟩),
   ("/proj/src/a.ts", ⟨["/proj/src/main.ts"], []⟩)]

/-- Oracle with one edge. -/
def c3Graph : ModuleGraph := [("/p/m.ts", ⟨["/p/a.ts"], []⟩)]

/-- Oracle where the same target is both a static and a dynamic dependency of
the same source. -/
def twoKindGraph : ModuleGraph := [("/p/m.ts", ⟨["/p/d.ts"], ["/p/d.ts"]⟩)]

/-- The two-module import cycle. -/
def cycleGraph : ModuleGraph :=
  [("/p/a.ts", ⟨["/p/b.ts"], []⟩), ("/p/b.ts", ⟨["/p/a.ts"], []⟩)]

/-- Oracle that knows only one module. -/
def leafGraph : ModuleGraph := [("/p/m.ts", ⟨[], []⟩)]

/-! ## Claim theorems -/

/-- C1, counterexample to the claim as stated: the claim says a skip-matched
dependency is still recursed into, so with `skipGraph` the supported file
`/p/c.ts`, reachable only through the skipped virtual module, would appear as
a node.  The code's `continue` skips the recursion as well: the run produces
only the entry node and `c.ts` never appears. -/
theorem c1_skip_recursion_counterexample :
    shouldSkip "\x00virt" = true ∧
    lookupInfo skipGraph "\x00virt" = some ⟨["/p/c.ts"], []⟩ ∧
    hasSupportedExt defaultExts "/p/c.ts" = true ∧
    (buildDag "/p" none 10 skipGraph ["/p/m.ts"]).nodes = [⟨"m.ts", 1⟩] ∧
    "c.ts" ∉ (buildDag "/p" none 10 skipGraph ["/p/m.ts"]).nodes.map (fun n => n.id) := by
  rw [buildDag_eq_final]
  decide

/-- C1, amended: for a dependency matched by the Skip Policy the builder
records no node and no edge AND does not recurse into it — processing such a
dependency leaves the walk state entirely unchanged (skip IS a traversal
stop). -/
theorem c1_skip_is_traversal_stop (g : ModuleGraph) (root : String) (exts : List String)
    (fuel : Nat) (id : String) (kind : EdgeKind) (dep : String) (rest : List String)
    (ts : TravState) (h : shouldSkip dep = true) :
    goDepsF g root exts fuel id kind (dep :: rest) ts =
      goDepsF g root exts fuel id kind rest ts := by
  rw [goDepsF_cons]
  have hstep : depStep root exts (fun d t => traverseF g root exts fuel d t) id kind ts dep = ts := by
    simp [depStep, h]
  rw [hstep]

/-- Witness for `c1_skip_is_traversal_stop` at a concrete skipped id. -/
theorem c1_skip_is_traversal_stop_witness :
    shouldSkip "\x00v" = true ∧
    goDepsF [] "/p" defaultExts 5 "/p/m.ts" EdgeKind.static ["\x00v"] ⟨initState, ["/p/m.ts"]⟩ =
      goDepsF [] "/p" defaultExts 5 "/p/m.ts" EdgeKind.static [] ⟨initState, ["/p/m.ts"]⟩ :=
  ⟨by decide,
   c1_skip_is_traversal_stop [] "/p" defaultExts 5 "/p/m.ts" EdgeKind.static "\x00v" []
     ⟨initState, ["/p/m.ts"]⟩ (by decide)⟩

/-- C2: on the specification's worked example the builder produces exactly
nodes `src/main.ts`(1), `src/a.ts`(2), `src/b.ts`(3), exactly the three edges
of the claim (the output stores them in creation order, with
`src/a.ts→src/main.ts` recorded before `src/main.ts→src/b.ts`), and entries
`[src/main.ts]`. -/
theorem c2_example_run :
    buildDag "/proj" none 10 exampleGraph ["/proj/src/main.ts"] =
      { nodes := [⟨"src/main.ts", 1⟩, ⟨"src/a.ts", 2⟩, ⟨"src/b.ts", 3⟩],
        edges := [⟨"src/main.ts", "src/a.ts", EdgeKind.static⟩,
                  ⟨"src/a.ts", "src/main.ts", EdgeKind.static⟩,
                  ⟨"src/main.ts", "src/b.ts", EdgeKind.dynamic⟩],
        entries := ["src/main.ts"] } ∧
    (buildDag "/proj" none 10 exampleGraph ["/proj/src/main.ts"]).edges.Perm
      [⟨"src/main.ts", "src/a.ts", EdgeKind.static⟩,
       ⟨"src/main.ts", "src/b.ts", EdgeKind.dynamic⟩,
       ⟨"src/a.ts", "src/main.ts", EdgeKind.static⟩] := by
  rw [buildDag_eq_final]
  decide

/-- C3: every edge in the output has both endpoints registered as nodes;
an edge is only ever recorded when both its source and its target pass the
Extension Filter; and when only the target qualifies, the target is still
registered as a node while the edge list is left unchanged. -/
theorem c3_edge_endpoints_supported :
    (∀ (root : String) (extsOpt : Option (List String)) (fuel : Nat) (g : ModuleGraph)
       (entries : List String) (e : DagEdge),
       e ∈ (buildDag root extsOpt fuel g entries).edges →
         e.source ∈ (buildDag root extsOpt fuel g entries).nodes.map (fun n => n.id) ∧
         e.target ∈ (buildDag root extsOpt fuel g entries).nodes.map (fun n => n.id)) ∧
    (∀ (root : String) (exts : List String) (id dep : String) (kind : EdgeKind)
       (s : BuildState),
       (recordDep root exts id dep kind s).edges ≠ s.edges →
         hasSupportedExt exts id = true ∧ hasSupportedExt exts dep = true) ∧
    (∀ (root : String) (exts : List String) (id dep : String) (kind : EdgeKind)
       (s : BuildState), hasSupportedExt exts dep = true → hasSupportedExt exts id = false →
         (recordDep root exts id dep kind s).edges = s.edges ∧
           hasNode (recordDep root exts id dep kind s) (toRel root dep) = true) := by
  refine ⟨?_, ?_, ?_⟩
  · intro root extsOpt fuel g entries e he
    have h := finalState_inv root extsOpt fuel g entries
    rw [buildDag_eq_final] at he ⊢
    exact h.ends_mem e he
  · intro root exts id dep kind s hne
    by_contra hcon
    rw [not_and_or] at hcon
    apply hne
    apply recordDep_edges_of_not_both
    rintro ⟨h1, h2⟩
    rcases hcon with h | h
    · exact h h1
    · exact h h2
  · intro root exts id dep kind s hdep hid
    exact recordDep_target_only root exts id dep kind s hdep hid

/-- Witness for `c3_edge_endpoints_supported`: concrete endpoint membership
for the single edge of `c3Graph`, and the node-only branch at a source with
an unsupported extension. -/
theorem c3_edge_endpoints_supported_witness :
    ("m.ts" ∈ (buildDag "/p" none 10 c3Graph ["/p/m.ts"]).nodes.map (fun n => n.id) ∧
     "a.ts" ∈ (buildDag "/p" none 10 c3Graph ["/p/m.ts"]).nodes.map (fun n => n.id)) ∧
    ((recordDep "/p" defaultExts "/p/x.css" "/p/y.ts" EdgeKind.static initState).edges =
        initState.edges ∧
      hasNode (recordDep "/p" defaultExts "/p/x.css" "/p/y.ts" EdgeKind.static initState)
        (toRel "/p" "/p/y.ts") = true) :=
  ⟨c3_edge_endpoints_supported.1 "/p" none 10 c3Graph ["/p/m.ts"]
     ⟨"m.ts", "a.ts", EdgeKind.static⟩ (by rw [buildDag_eq_final]; decide),
   c3_edge_endpoints_supported.2.2 "/p" defaultExts "/p/x.css" "/p/y.ts" EdgeKind.static
     initState (by decide) (by decide)⟩

/-- C4: in every run the node ids are pairwise distinct and the edge
(source, target, kind) triples are pairwise distinct; the same (source,
target) pair with the two different kinds yields two distinct edges. -/
theorem c4_node_edge_uniqueness :
    (∀ (root : String) (extsOpt : Option (List String)) (fuel : Nat) (g : ModuleGraph)
       (entries : List String),
       ((buildDag root extsOpt fuel g entries).nodes.map (fun n => n.id)).Nodup ∧
       ((buildDag root extsOpt fuel g entries).edges.map
         (fun e => (e.source, e.target, e.kind))).Nodup) ∧
    (buildDag "/p" none 10 twoKindGraph ["/p/m.ts"]).edges =
      [⟨"m.ts", "d.ts", EdgeKind.static⟩, ⟨"m.ts", "d.ts", EdgeKind.dynamic⟩] := by
  constructor
  · intro root extsOpt fuel g entries
    have h := finalState_inv root extsOpt fuel g entries
    rw [buildDag_eq_final]
    exact ⟨h.ids_nodup, edges_triple_nodup h⟩
  · rw [buildDag_eq_final]
    decide

/-- C5: in every run the order values over the nodes are exactly `1..N` in
positional (creation) order, the output node sequence after the final
sort-by-order coincides with the discovery-order sequence, and the single
shared counter ends one past the number of nodes. -/
theorem c5_order_permutation (root : String) (extsOpt : Option (List String)) (fuel : Nat)
    (g : ModuleGraph) (entries : List String) :
    (buildDag root extsOpt fuel g entries).nodes.map (fun n => n.order) =
      List.range' 1 (buildDag root extsOpt fuel g entries).nodes.length ∧
    (buildDag root extsOpt fuel g entries).nodes =
      (finalState root extsOpt fuel g entries).nodes ∧
    (finalState root extsOpt fuel g entries).orderCounter =
      (finalState root extsOpt fuel g entries).nodes.length + 1 := by
  have h := finalState_inv root extsOpt fuel g entries
  rw [buildDag_eq_final]
  exact ⟨h.orders_eq, rfl, h.counter_eq⟩

/-- C6: the two-module cycle terminates with exactly the two static edges
and no duplication; for every oracle the result is fuel-independent once the
recursion budget exceeds the oracle size (the embedding's form of
termination, driven by the `visited` set); an already-visited dependency is
not recursed into (only its node/edge bookkeeping runs); and the `visited`
set only ever grows. -/
theorem c6_termination_cycle :
    (buildDag "/p" none 10 cycleGraph ["/p/a.ts"] =
      { nodes := [⟨"a.ts", 1⟩, ⟨"b.ts", 2⟩],
        edges := [⟨"a.ts", "b.ts", EdgeKind.static⟩, ⟨"b.ts", "a.ts", EdgeKind.static⟩],
        entries := ["a.ts"] }) ∧
    (∀ (root : String) (extsOpt : Option (List String)) (g : ModuleGraph)
       (entries : List String) (fa fb : Nat),
       (domKeys g).length + 2 ≤ fa → (domKeys g).length + 2 ≤ fb →
       buildDag root extsOpt fa g entries = buildDag root extsOpt fb g entries) ∧
    (∀ (g : ModuleGraph) (root : String) (exts : List String) (fuel : Nat) (id : String)
       (kind : EdgeKind) (dep : String) (rest : List String) (ts : TravState),
       shouldSkip dep = false → ts.visited.contains dep = true →
       goDepsF g root exts fuel id kind (dep :: rest) ts =
         goDepsF g root exts fuel id kind rest
           { ts with bs := recordDep root exts id dep kind ts.bs }) ∧
    (∀ (g : ModuleGraph) (root : String) (exts : List String) (fuel : Nat) (id : String)
       (ts : TravState), ∃ a, (traverseF g root exts fuel id ts).visited = ts.visited ++ a) := by
  refine ⟨?_, buildDag_stable, ?_, ?_⟩
  · rw [buildDag_eq_final]
    decide
  · intro g root exts fuel id kind dep rest ts hskip hvis
    rw [goDepsF_cons]
    have hvism : dep ∈ ts.visited := by rw [← contains_true_iff]; exact hvis
    have hstep : depStep root exts (fun d t => traverseF g root exts fuel d t) id kind ts dep =
        { ts with bs := recordDep root exts id dep kind ts.bs } := by
      simp [depStep, hskip, hvism]
    rw [hstep]
  · intro g root exts fuel id ts
    exact (traverseF_monoT g root exts fuel id ts).2

/-- Witness for `c6_termination_cycle`: fuel-independence of the cycle run at
two concrete fuel values, and the no-recursion step at a concrete visited
dependency. -/
theorem c6_termination_cycle_witness :
    buildDag "/p" none 4 cycleGraph ["/p/a.ts"] = buildDag "/p" none 9 cycleGraph ["/p/a.ts"] ∧
    goDepsF [] "/p" defaultExts 3 "/p/a.ts" EdgeKind.static ["/p/b.ts"]
        ⟨initState, ["/p/b.ts"]⟩ =
      goDepsF [] "/p" defaultExts 3 "/p/a.ts" EdgeKind.static []
        ⟨recordDep "/p" defaultExts "/p/a.ts" "/p/b.ts" EdgeKind.static initState,
          ["/p/b.ts"]⟩ :=
  ⟨c6_termination_cycle.2.1 "/p" none cycleGraph ["/p/a.ts"] 4 9 (by decide) (by decide),
   c6_termination_cycle.2.2.1 [] "/p" defaultExts 3 "/p/a.ts" EdgeKind.static "/p/b.ts" []
     ⟨initState, ["/p/b.ts"]⟩ (by decide) (by decide)⟩

/-- C7, counterexample to the claim as stated: `shouldSkip` tests for the
SUBSTRING `node_modules`, not for a whole path segment.  This id contains the
substring inside the segment `my_node_modules_x`, has no `node_modules`
segment, is non-empty, and does not start with the NUL sentinel — yet it is
skipped, so the claimed "for all other identifiers it returns false"
direction fails. -/
theorem c7_skip_segment_counterexample :
    shouldSkip "/p/my_node_modules_x/a.ts" = true ∧
    "/p/my_node_modules_x/a.ts" ≠ "" ∧
    strStartsWith "/p/my_node_modules_x/a.ts" "\x00" = false ∧
    "node_modules" ∉ (splitChar '/' "/p/my_node_modules_x/a.ts".toList).map String.mk := by
  decide

/-- C7, amended: the skip predicate returns true iff the identifier is empty,
or contains `node_modules` as a substring anywhere (not necessarily as a
whole path segment), or begins with the NUL sentinel character; for all other
identifiers it returns false. -/
theorem c7_skip_predicate_characterization (id : String) :
    shouldSkip id = true ↔
      id = "" ∨ (∃ a b, id.toList = a ++ "node_modules".toList ++ b) ∨
        ∃ t, id.toList = '\x00' :: t :=
  shouldSkip_iff id

/-- C8: when the oracle knows nothing about the current id, the walk stops
expanding the branch with no other effect than the head-of-traverse
registration; that registration creates the node exactly when the id passes
the Extension Filter, and is a no-op when the id is already registered. -/
theorem c8_unresolved_leaf :
    (∀ (g : ModuleGraph) (root : String) (exts : List String) (fuel : Nat) (id : String)
       (ts : TravState), lookupInfo g id = none →
       traverseF g root exts (fuel + 1) id ts =
         { ts with bs := registerSelf root exts id ts.bs }) ∧
    (∀ (root : String) (exts : List String) (id : String) (s : BuildState),
       hasSupportedExt exts id = true →
       hasNode (registerSelf root exts id s) (toRel root id) = true) ∧
    (∀ (root : String) (exts : List String) (id : String) (s : BuildState),
       hasNode s (toRel root id) = true → registerSelf root exts id s = s) := by
  refine ⟨?_, ?_, ?_⟩
  · intro g root exts fuel id ts h
    exact traverseF_of_none g root exts h fuel ts
  · intro root exts id s h
    exact registerSelf_has root exts id h
  · intro root exts id s h
    exact registerSelf_of_registered root exts id s h

/-- Witness for `c8_unresolved_leaf` at a concrete unknown id. -/
theorem c8_unresolved_leaf_witness :
    lookupInfo leafGraph "/p/q.ts" = none ∧
    traverseF leafGraph "/p" defaultExts 6 "/p/q.ts" ⟨initState, ["/p/q.ts"]⟩ =
      { bs := registerSelf "/p" defaultExts "/p/q.ts" initState, visited := ["/p/q.ts"] } ∧
    hasNode (registerSelf "/p" defaultExts "/p/q.ts" initState) (toRel "/p" "/p/q.ts") = true :=
  ⟨by decide,
   c8_unresolved_leaf.1 leafGraph "/p" defaultExts 5 "/p/q.ts" ⟨initState, ["/p/q.ts"]⟩
     (by decide),
   c8_unresolved_leaf.2.1 "/p" defaultExts "/p/q.ts" initState (by decide)⟩

/-- C9: the builder is deterministic — equal entries, equal oracle responses
and equal configuration give equal output artifacts (the embedding is a pure
function of those inputs). -/
theorem c9_determinism (roota rootb : String) (ea eb : Option (List String)) (fuel : Nat)
    (ga gb : ModuleGraph) (ena enb : List String)
    (hroot : roota = rootb) (hexts : ea = eb) (hg : ga = gb) (hen : ena = enb) :
    buildDag roota ea fuel ga ena = buildDag rootb eb fuel gb enb := by
  subst hroot; subst hexts; subst hg; subst hen; rfl

/-- Witness for `c9_determinism` at concrete equal inputs. -/
theorem c9_determinism_witness :
    buildDag "/p" none 5 leafGraph ["/p/m.ts"] = buildDag "/p" none 5 leafGraph ["/p/m.ts"] :=
  c9_determinism "/p" "/p" none none 5 leafGraph leafGraph ["/p/m.ts"] ["/p/m.ts"]
    rfl rfl rfl rfl

/-- C10: an explicitly supplied empty extension array is replaced by the full
default set (as is an absent option), and the configured extension set is
never empty. -/
theorem c10_empty_extensions_default :
    configuredExts (some []) = defaultExts ∧ configuredExts none = defaultExts ∧
      ∀ extsOpt, 0 < (configuredExts extsOpt).length := by
  refine ⟨rfl, rfl, ?_⟩
  intro extsOpt
  cases extsOpt with
  | none => decide
  | some l =>
    simp only [configuredExts]
    split
    · rename_i h
      simpa using h
    · decide

end EntryDag
